import Mathlib

/-!
# Verification of the all-hands CLI against its specification

Shallow embedding of the repository in Lean 4.

Two source files are available (`scripts/allhands/init.py` and
`scripts/allhands/sync_back.py`); the sandbox-orchestration core described by
the specification (Naming Normalizer, Spawn Orchestrator, Status Reporter,
Cleanup Reaper) is part of the repository but its source file is not under
`src/`, so those components are modelled from the specification text, as their
doc comments state.

Strings of the target program are modelled as `String`; raw byte strings used
only in equality comparisons (`read_bytes`) are modelled as `String` as well;
code points processed character by character (the Naming Normalizer) are
modelled as `List Nat` of Unicode code points.  A Python function that may
raise is embedded as `Except`, with `.error` standing for an exception
propagating out of the embedded code and `.ok` for a normal return.
-/

namespace AllHands

/-! ## Naming Normalizer (specification §4.1)

The orchestration core containing this function is not under `src/`; it is
modelled from the specification. A string is a `List Nat` of code points. -/

/-- Modelled from the spec: membership in the forbidden character set
`~ ^ : ? * [ ] \ @ { } <whitespace> /` of §4.1, by code point:
tilde 126, caret 94, colon 58, question mark 63, asterisk 42,
brackets 91 and 93, backslash 92, at sign 64, braces 123 and 125,
slash 47, whitespace (space 32, tab 9, line feed 10, carriage return 13). -/
def isForbidden (c : Nat) : Bool :=
  c == 126 || c == 94 || c == 58 || c == 63 || c == 42 || c == 91 || c == 93 ||
  c == 92 || c == 64 || c == 123 || c == 125 || c == 47 ||
  c == 32 || c == 9 || c == 10 || c == 13

/-- Code point of the dash character. -/
def dashC : Nat := 45

/-- Code point of the dot character. -/
def dotC : Nat := 46

/-- Code point of the slash character. -/
def slashC : Nat := 47

/-- Modelled from the spec: rule 1 of §4.1, replace each character of the
forbidden set with a dash. -/
def replaceForbidden (c : Nat) : Nat :=
  if isForbidden c then dashC else c

/-- Modelled from the spec: rules 2 and 3 of §4.1, collapse each run of two or
more occurrences of `t` into a single occurrence. -/
def squeeze (t : Nat) : List Nat → List Nat
  | [] => []
  | [a] => [a]
  | a :: b :: rest =>
    if a = t ∧ b = t then squeeze t (b :: rest)
    else a :: squeeze t (b :: rest)

/-- The characters stripped from both ends by rule 4 of §4.1: dot, dash,
slash. -/
def isStripChar (c : Nat) : Bool :=
  c == dotC || c == dashC || c == slashC

/-- Modelled from the spec: rule 4 of §4.1, strip leading and trailing dots,
dashes and slashes. -/
def stripEnds (l : List Nat) : List Nat :=
  (l.dropWhile isStripChar).rdropWhile isStripChar

/-- Modelled from the spec: rule 5 of §4.1, ASCII lower-casing of one code
point (upper-case letters occupy 65 to 90; adding 32 yields 97 to 122). -/
def toLowerC (c : Nat) : Nat :=
  if 65 ≤ c ∧ c ≤ 90 then c + 32 else c

/-- Modelled from the spec: the Naming Normalizer of §4.1, rules 1 to 5
applied in order. -/
def normalize (s : List Nat) : List Nat :=
  (stripEnds (squeeze dashC (squeeze dotC (s.map replaceForbidden)))).map toLowerC

/-- `true` when the list contains no two adjacent occurrences of `t`. -/
def noDouble (t : Nat) : List Nat → Bool
  | a :: b :: rest => !(a == t && b == t) && noDouble t (b :: rest)
  | _ => true

/-- The output shape §4.1 promises: no forbidden character, every character
fixed by lower-casing, no doubled dot, no doubled dash, and no leading or
trailing dot, dash or slash. -/
def isNormalized (l : List Nat) : Bool :=
  l.all (fun c => !isForbidden c && (toLowerC c == c)) &&
  noDouble dotC l && noDouble dashC l &&
  (match l.head? with | none => true | some c => !isStripChar c) &&
  (match l.getLast? with | none => true | some c => !isStripChar c)

/-! ### Normalizer lemmas -/

theorem mem_squeeze {t c : Nat} : ∀ {l : List Nat}, c ∈ squeeze t l → c ∈ l
  | [], h => by simp [squeeze] at h
  | [a], h => by simpa [squeeze] using h
  | a :: b :: rest, h => by
    simp only [squeeze] at h
    split at h
    · exact List.mem_cons_of_mem _ (mem_squeeze h)
    · rcases List.mem_cons.mp h with h' | h'
      · exact h' ▸ List.mem_cons_self _ _
      · exact List.mem_cons_of_mem _ (mem_squeeze h')

theorem squeeze_head? (t : Nat) : ∀ l : List Nat, (squeeze t l).head? = l.head?
  | [] => rfl
  | [_] => rfl
  | a :: b :: rest => by
    simp only [squeeze]
    split
    · rename_i hab
      rw [squeeze_head? t (b :: rest)]
      simp [hab.1, hab.2]
    · rfl

theorem noDouble_cons_cons (t a b : Nat) (rest : List Nat) :
    noDouble t (a :: b :: rest) = (!(a == t && b == t) && noDouble t (b :: rest)) :=
  rfl

theorem noDouble_tail {t a : Nat} {l : List Nat}
    (h : noDouble t (a :: l) = true) : noDouble t l = true := by
  cases l with
  | nil => rfl
  | cons b rest =>
    rw [noDouble_cons_cons, Bool.and_eq_true] at h
    exact h.2

theorem noDouble_cons_of_head? {t a : Nat} {l : List Nat}
    (h1 : ∀ b, l.head? = some b → ¬(a = t ∧ b = t))
    (h2 : noDouble t l = true) : noDouble t (a :: l) = true := by
  cases l with
  | nil => rfl
  | cons b rest =>
    rw [noDouble_cons_cons, Bool.and_eq_true]
    refine ⟨?_, h2⟩
    have hab := h1 b rfl
    by_cases ha : a = t
    · by_cases hb : b = t
      · exact absurd ⟨ha, hb⟩ hab
      · simp [hb]
    · simp [ha]

theorem noDouble_squeeze (t : Nat) : ∀ l : List Nat, noDouble t (squeeze t l) = true
  | [] => rfl
  | [_] => rfl
  | a :: b :: rest => by
    simp only [squeeze]
    split
    · exact noDouble_squeeze t (b :: rest)
    · rename_i hab
      refine noDouble_cons_of_head? (fun c hc => ?_) (noDouble_squeeze t (b :: rest))
      rw [squeeze_head? t (b :: rest)] at hc
      have hbc : b = c := by simpa using hc
      exact fun hcon => hab ⟨hcon.1, by rw [hbc]; exact hcon.2⟩

theorem noDouble_squeeze_other {u t : Nat} :
    ∀ l : List Nat, noDouble u l = true → noDouble u (squeeze t l) = true
  | [], _ => rfl
  | [_], _ => rfl
  | a :: b :: rest, h => by
    simp only [squeeze]
    split
    · exact noDouble_squeeze_other (b :: rest) (noDouble_tail h)
    · refine noDouble_cons_of_head? (fun c hc => ?_) (noDouble_squeeze_other (b :: rest) (noDouble_tail h))
      rw [squeeze_head? t (b :: rest)] at hc
      have hc' : c = b := by simpa using hc.symm
      subst hc'
      rw [noDouble_cons_cons, Bool.and_eq_true] at h
      intro hcon
      simp [hcon.1, hcon.2] at h

theorem noDouble_append_right {t : Nat} :
    ∀ l₁ l₂ : List Nat, noDouble t (l₁ ++ l₂) = true → noDouble t l₂ = true
  | [], _, h => h
  | _ :: rest, l₂, h => noDouble_append_right rest l₂ (noDouble_tail h)

theorem noDouble_append_left {t : Nat} :
    ∀ l₁ l₂ : List Nat, noDouble t (l₁ ++ l₂) = true → noDouble t l₁ = true
  | [], _, _ => rfl
  | [_], _, _ => rfl
  | a :: b :: rest, l₂, h => by
    have h' : noDouble t (a :: b :: (rest ++ l₂)) = true := h
    rw [noDouble_cons_cons, Bool.and_eq_true] at h'
    rw [noDouble_cons_cons, Bool.and_eq_true]
    exact ⟨h'.1, noDouble_append_left (b :: rest) l₂ h'.2⟩

theorem noDouble_of_prefix {t : Nat} {l₁ l₂ : List Nat} (h : l₁ <+: l₂)
    (hd : noDouble t l₂ = true) : noDouble t l₁ = true := by
  obtain ⟨r, hr⟩ := h
  exact noDouble_append_left l₁ r (hr ▸ hd)

theorem dropWhile_suffix_decomp (p : Nat → Bool) :
    ∀ l : List Nat, ∃ l₁, l₁ ++ l.dropWhile p = l
  | [] => ⟨[], rfl⟩
  | a :: rest => by
    by_cases h : p a
    · obtain ⟨l₁, hl⟩ := dropWhile_suffix_decomp p rest
      exact ⟨a :: l₁, by rw [List.dropWhile_cons_of_pos h, List.cons_append, hl]⟩
    · exact ⟨[], by rw [List.dropWhile_cons_of_neg h, List.nil_append]⟩

theorem noDouble_stripEnds {t : Nat} {l : List Nat} (h : noDouble t l = true) :
    noDouble t (stripEnds l) = true := by
  unfold stripEnds
  obtain ⟨l₁, hl⟩ := dropWhile_suffix_decomp isStripChar l
  have h1 : noDouble t (l.dropWhile isStripChar) = true :=
    noDouble_append_right l₁ _ (by rw [hl]; exact h)
  have hpre := List.rdropWhile_prefix isStripChar (l.dropWhile isStripChar)
  exact noDouble_of_prefix hpre h1

theorem mem_stripEnds {c : Nat} {l : List Nat} (h : c ∈ stripEnds l) : c ∈ l := by
  unfold stripEnds at h
  have hpre := List.rdropWhile_prefix isStripChar (l.dropWhile isStripChar)
  have h1 : c ∈ l.dropWhile isStripChar := hpre.subset h
  obtain ⟨l₁, hl⟩ := dropWhile_suffix_decomp isStripChar l
  rw [← hl]
  exact List.mem_append_right _ h1

theorem head?_of_front {α : Type} {l₁ l₂ : List α} (h : l₁ <+: l₂) {c : α}
    (hc : l₁.head? = some c) : l₂.head? = some c := by
  obtain ⟨r, hr⟩ := h
  subst hr
  cases l₁ with
  | nil => simp at hc
  | cons a t => simpa using hc

theorem head?_dropWhile_false (p : Nat → Bool) :
    ∀ l : List Nat, ∀ c, (l.dropWhile p).head? = some c → p c = false
  | [], c, h => by simp at h
  | a :: rest, c, h => by
    by_cases hp : p a
    · rw [List.dropWhile_cons_of_pos hp] at h
      exact head?_dropWhile_false p rest c h
    · rw [List.dropWhile_cons_of_neg hp] at h
      have ha : a = c := by simpa using h
      subst ha
      simpa using hp

theorem head?_stripEnds_false {l : List Nat} {c : Nat}
    (h : (stripEnds l).head? = some c) : isStripChar c = false := by
  unfold stripEnds at h
  have hpre := List.rdropWhile_prefix isStripChar (l.dropWhile isStripChar)
  exact head?_dropWhile_false isStripChar l c (head?_of_front hpre h)

theorem getLast?_stripEnds_false {l : List Nat} {c : Nat}
    (h : (stripEnds l).getLast? = some c) : isStripChar c = false := by
  unfold stripEnds at h
  have hne : (l.dropWhile isStripChar).rdropWhile isStripChar ≠ [] := by
    intro hnil
    rw [hnil] at h
    simp at h
  have hlast := List.rdropWhile_last_not isStripChar (l.dropWhile isStripChar) hne
  rw [List.getLast?_eq_getLast _ hne] at h
  have hc : ((l.dropWhile isStripChar).rdropWhile isStripChar).getLast hne = c :=
    Option.some.inj h
  rw [hc] at hlast
  simpa using hlast

theorem isForbidden_false_iff (c : Nat) :
    isForbidden c = false ↔ (c ≠ 126 ∧ c ≠ 94 ∧ c ≠ 58 ∧ c ≠ 63 ∧ c ≠ 42 ∧
      c ≠ 91 ∧ c ≠ 93 ∧ c ≠ 92 ∧ c ≠ 64 ∧ c ≠ 123 ∧ c ≠ 125 ∧ c ≠ 47 ∧
      c ≠ 32 ∧ c ≠ 9 ∧ c ≠ 10 ∧ c ≠ 13) := by
  simp only [isForbidden, Bool.or_eq_false_iff, beq_eq_false_iff_ne, ne_eq]
  tauto

theorem isStripChar_false_iff (c : Nat) :
    isStripChar c = false ↔ (c ≠ 46 ∧ c ≠ 45 ∧ c ≠ 47) := by
  simp only [isStripChar, dotC, dashC, slashC, Bool.or_eq_false_iff,
    beq_eq_false_iff_ne, ne_eq]
  tauto

theorem toLowerC_idem (c : Nat) : toLowerC (toLowerC c) = toLowerC c := by
  by_cases h : 65 ≤ c ∧ c ≤ 90
  · simp only [toLowerC, if_pos h]
    rw [if_neg (by omega)]
  · simp only [toLowerC, if_neg h]

theorem isForbidden_toLowerC {c : Nat} (h : isForbidden c = false) :
    isForbidden (toLowerC c) = false := by
  unfold toLowerC
  split
  · rw [isForbidden_false_iff]
    omega
  · exact h

theorem isStripChar_toLowerC (c : Nat) : isStripChar (toLowerC c) = isStripChar c := by
  unfold toLowerC
  split
  · rename_i h
    have h1 : isStripChar (c + 32) = false := by rw [isStripChar_false_iff]; omega
    have h2 : isStripChar c = false := by rw [isStripChar_false_iff]; omega
    rw [h1, h2]
  · rfl

theorem toLowerC_eq_small {t c : Nat} (ht : t < 65) : (toLowerC c = t) ↔ (c = t) := by
  unfold toLowerC
  split
  · rename_i h
    constructor <;> intro hh <;> omega
  · exact Iff.rfl

theorem noDouble_map {t : Nat} {f : Nat → Nat} (hf : ∀ c, f c = t ↔ c = t) :
    ∀ l : List Nat, noDouble t l = true → noDouble t (l.map f) = true
  | [], _ => rfl
  | [_], _ => rfl
  | a :: b :: rest, h => by
    rw [List.map_cons, List.map_cons, noDouble_cons_cons, Bool.and_eq_true]
    rw [noDouble_cons_cons, Bool.and_eq_true] at h
    constructor
    · by_cases hfa : f a = t
      · by_cases hfb : f b = t
        · have h1 := h.1
          rw [(hf a).mp hfa, (hf b).mp hfb] at h1
          simp at h1
        · simp [hfb]
      · simp [hfa]
    · have hrec := noDouble_map hf (b :: rest) h.2
      rw [List.map_cons] at hrec
      exact hrec

theorem isForbidden_replaceForbidden (c : Nat) :
    isForbidden (replaceForbidden c) = false := by
  unfold replaceForbidden
  split
  · decide
  · rename_i h
    simpa using h

theorem map_eq_self_of {f : Nat → Nat} :
    ∀ l : List Nat, (∀ c ∈ l, f c = c) → l.map f = l
  | [], _ => rfl
  | a :: rest, h => by
    rw [List.map_cons, h a (List.mem_cons_self a rest),
      map_eq_self_of rest (fun c hc => h c (List.mem_cons_of_mem a hc))]

theorem squeeze_eq_self {t : Nat} :
    ∀ l : List Nat, noDouble t l = true → squeeze t l = l
  | [], _ => rfl
  | [_], _ => rfl
  | a :: b :: rest, h => by
    rw [noDouble_cons_cons, Bool.and_eq_true] at h
    have hne : ¬(a = t ∧ b = t) := by
      intro hcon
      have h1 := h.1
      rw [hcon.1, hcon.2] at h1
      simp at h1
    simp only [squeeze]
    rw [if_neg hne, squeeze_eq_self (b :: rest) h.2]

theorem dropWhile_eq_self_of_head {p : Nat → Bool} {l : List Nat}
    (h : ∀ c, l.head? = some c → p c = false) : l.dropWhile p = l := by
  cases l with
  | nil => rfl
  | cons a rest =>
    have ha := h a rfl
    rw [List.dropWhile_cons_of_neg (by simp [ha])]

theorem rdropWhile_eq_self_of_last {p : Nat → Bool} {l : List Nat}
    (h : ∀ c, l.getLast? = some c → p c = false) : l.rdropWhile p = l := by
  rw [List.rdropWhile_eq_self_iff]
  intro hl
  have h2 := List.getLast?_eq_getLast l hl
  have h3 := h _ h2
  simp [h3]

theorem replaceForbidden_eq_self {c : Nat} (h : isForbidden c = false) :
    replaceForbidden c = c := by
  simp [replaceForbidden, h]

theorem isNormalized_spec {l : List Nat} (h : isNormalized l = true) :
    (∀ c ∈ l, isForbidden c = false ∧ toLowerC c = c) ∧
    noDouble dotC l = true ∧ noDouble dashC l = true ∧
    (∀ c, l.head? = some c → isStripChar c = false) ∧
    (∀ c, l.getLast? = some c → isStripChar c = false) := by
  simp only [isNormalized, Bool.and_eq_true] at h
  obtain ⟨⟨⟨⟨hA, hdot⟩, hdash⟩, hH⟩, hL⟩ := h
  refine ⟨?_, hdot, hdash, ?_, ?_⟩
  · intro c hc
    rw [List.all_eq_true] at hA
    have := hA c hc
    rw [Bool.and_eq_true] at this
    exact ⟨by simpa using this.1, by simpa using this.2⟩
  · intro c hc
    rw [hc] at hH
    simpa using hH
  · intro c hc
    rw [hc] at hL
    simpa using hL

theorem normalize_eq_self {l : List Nat} (h : isNormalized l = true) :
    normalize l = l := by
  obtain ⟨hall, hdot, hdash, hH, hL⟩ := isNormalized_spec h
  unfold normalize
  rw [map_eq_self_of l (fun c hc => replaceForbidden_eq_self (hall c hc).1)]
  rw [squeeze_eq_self l hdot, squeeze_eq_self l hdash]
  unfold stripEnds
  rw [dropWhile_eq_self_of_head hH, rdropWhile_eq_self_of_last hL]
  exact map_eq_self_of l (fun c hc => (hall c hc).2)

theorem isNormalized_normalize (s : List Nat) : isNormalized (normalize s) = true := by
  have hm : ∀ c ∈ s.map replaceForbidden, isForbidden c = false := by
    intro c hc
    rw [List.mem_map] at hc
    obtain ⟨d, _, rfl⟩ := hc
    exact isForbidden_replaceForbidden d
  have hstrip : ∀ c ∈ stripEnds (squeeze dashC (squeeze dotC (s.map replaceForbidden))),
      isForbidden c = false :=
    fun c hc => hm c (mem_squeeze (mem_squeeze (mem_stripEnds hc)))
  have hdotS : noDouble dotC (stripEnds (squeeze dashC (squeeze dotC (s.map replaceForbidden)))) = true :=
    noDouble_stripEnds (noDouble_squeeze_other _ (noDouble_squeeze dotC _))
  have hdashS : noDouble dashC (stripEnds (squeeze dashC (squeeze dotC (s.map replaceForbidden)))) = true :=
    noDouble_stripEnds (noDouble_squeeze dashC _)
  simp only [isNormalized, Bool.and_eq_true]
  refine ⟨⟨⟨⟨?_, ?_⟩, ?_⟩, ?_⟩, ?_⟩
  · rw [List.all_eq_true]
    intro c hc
    rw [normalize, List.mem_map] at hc
    obtain ⟨d, hd, rfl⟩ := hc
    rw [Bool.and_eq_true]
    constructor
    · simpa using isForbidden_toLowerC (hstrip d hd)
    · simpa using toLowerC_idem d
  · exact noDouble_map (fun c => toLowerC_eq_small (by decide)) _ hdotS
  · exact noDouble_map (fun c => toLowerC_eq_small (by decide)) _ hdashS
  · rw [normalize]
    cases hh : ((stripEnds (squeeze dashC (squeeze dotC (s.map replaceForbidden)))).map toLowerC).head? with
    | none => rfl
    | some c =>
      rw [List.head?_map] at hh
      cases hh2 : (stripEnds (squeeze dashC (squeeze dotC (s.map replaceForbidden)))).head? with
      | none => rw [hh2] at hh; simp at hh
      | some d =>
        rw [hh2] at hh
        have hcd : toLowerC d = c := by simpa using hh
        have hds := head?_stripEnds_false hh2
        rw [← hcd]
        simp [isStripChar_toLowerC, hds]
  · rw [normalize]
    cases hh : ((stripEnds (squeeze dashC (squeeze dotC (s.map replaceForbidden)))).map toLowerC).getLast? with
    | none => rfl
    | some c =>
      rw [List.getLast?_map] at hh
      cases hh2 : (stripEnds (squeeze dashC (squeeze dotC (s.map replaceForbidden)))).getLast? with
      | none => rw [hh2] at hh; simp at hh
      | some d =>
        rw [hh2] at hh
        have hcd : toLowerC d = c := by simpa using hh
        have hds := getLast?_stripEnds_false hh2
        rw [← hcd]
        simp [isStripChar_toLowerC, hds]

/-- **C3.** For every input string, the Naming Normalizer output contains no
character of the forbidden set, no two consecutive dots, no two consecutive
dashes, and no leading or trailing dot, dash or slash; and applying the
normalizer to its own output returns the output unchanged (idempotence). -/
theorem normalizer_safe_and_idempotent (s : List Nat) :
    ((normalize s).all (fun c => !isForbidden c) = true) ∧
    noDouble dotC (normalize s) = true ∧
    noDouble dashC (normalize s) = true ∧
    ((normalize s).head?.all (fun c => !isStripChar c) = true) ∧
    ((normalize s).getLast?.all (fun c => !isStripChar c) = true) ∧
    normalize (normalize s) = normalize s := by
  have hn := isNormalized_normalize s
  obtain ⟨hall, hdot, hdash, hH, hL⟩ := isNormalized_spec hn
  refine ⟨?_, hdot, hdash, ?_, ?_, normalize_eq_self hn⟩
  · rw [List.all_eq_true]
    intro c hc
    simp [(hall c hc).1]
  · cases hh : (normalize s).head? with
    | none => rfl
    | some c => simpa using hH c hh
  · cases hh : (normalize s).getLast? with
    | none => rfl
    | some c => simpa using hL c hh

/-! ## Sandbox orchestration core (specification §3 to §4.7)

The orchestration source file is not under `src/`; every definition in this
section is modelled from the specification text. -/

/-- Modelled from the spec: the persisted WorkerMetadata record (§3, §6):
branch, task, base ref and the process id of the launched background task.
Strings are code-point lists, as in the Naming Normalizer section. -/
structure WorkerMetadata where
  branch : List Nat
  task : List Nat
  from_branch : List Nat
  pid : Option Nat
  deriving DecidableEq

/-- Modelled from the spec: one sandbox as the filesystem shows it (§2, §4.2,
§6): the logical name derived from the directory name, the metadata file if
present, whether the backing branch exists, and whether the working tree
holds uncommitted changes (the protection that `force` bypasses in §4.7). -/
structure SandboxEntry where
  name : List Nat
  metadata : Option WorkerMetadata
  branchExists : Bool
  dirty : Bool
  deriving DecidableEq

/-- Modelled from the spec: the filesystem state every command re-derives its
view from (§2, §5): the depth marker of the caller environment, the
configured concurrency ceiling, and the sandbox directories present. -/
structure OrchState where
  depthMarker : Bool
  maxWorkers : Nat
  sandboxes : List SandboxEntry
  deriving DecidableEq

/-- The logical names the Sandbox Registry reports (§4.2). -/
def registryNames (st : OrchState) : List (List Nat) :=
  st.sandboxes.map (fun sb => sb.name)

/-- Modelled from the spec: the derived, never persisted WorkerStatus (§3). -/
inductive WorkerStatus where
  | running
  | completed
  | unknown
  deriving DecidableEq

/-- Modelled from the spec: status derivation (§4.6): running iff metadata has
a process id the Liveness Prober reports as existing, completed iff it has a
process id the Prober reports as gone, unknown otherwise (no metadata file,
or metadata without a recorded process id). -/
def deriveStatus (md : Option WorkerMetadata) (alive : Nat → Bool) : WorkerStatus :=
  match md with
  | none => .unknown
  | some m =>
    match m.pid with
    | none => .unknown
    | some pid => if alive pid then .running else .completed

/-- Spawn error kinds (§6); `limit_exceeded` reports the active set. -/
inductive SpawnError where
  | nesting_blocked
  | limit_exceeded (active : List (List Nat))
  | already_exists
  | git_error
  | spawn_error
  deriving DecidableEq

/-- The success handle spawn returns (§4.5 step e). The sandbox path is
omitted: by the §3 invariant it is the deterministic image of `worker`. -/
structure SpawnHandle where
  worker : List Nat
  branch : List Nat
  pid : Nat
  task : List Nat
  deriving DecidableEq

/-- Oracle for the external effects of one spawn invocation: whether worktree
creation (step a), the detached launch (step c) and the metadata write
(step d) succeed, and which process id the launch yields. -/
structure SpawnEnv where
  worktreeOk : Bool
  launchOk : Bool
  persistOk : Bool
  pid : Nat
  deriving DecidableEq

/-- Removal of one sandbox directory from the registry view. -/
def removeSandbox (st : OrchState) (n : List Nat) : OrchState :=
  { st with sandboxes := st.sandboxes.filter (fun sb => !(sb.name == n)) }

/-- Modelled from the spec: the Spawn Orchestrator (§4.5). Preconditions are
checked in order with the first failure winning: depth marker (nesting),
concurrency ceiling, name collision. Once step (a) has created the working
tree and branch, any later failure triggers forced removal of the freshly
created sandbox before the error is reported. -/
def spawn (st : OrchState) (env : SpawnEnv) (label task fromBranch : List Nat) :
    Except SpawnError SpawnHandle × OrchState :=
  if st.depthMarker then (.error .nesting_blocked, st)
  else if st.maxWorkers ≤ st.sandboxes.length then
    (.error (.limit_exceeded (registryNames st)), st)
  else
    let name := normalize label
    if name ∈ registryNames st then (.error .already_exists, st)
    else if env.worktreeOk = false then
      (.error .git_error, st)
    else
      let created : SandboxEntry :=
        { name := name, metadata := none, branchExists := true, dirty := false }
      let st1 : OrchState := { st with sandboxes := created :: st.sandboxes }
      if env.launchOk ∧ env.persistOk then
        let md : WorkerMetadata :=
          { branch := label, task := task, from_branch := fromBranch, pid := some env.pid }
        (.ok { worker := name, branch := label, pid := env.pid, task := task },
         { st with sandboxes := { created with metadata := some md } :: st.sandboxes })
      else
        (.error .spawn_error, removeSandbox st1 name)

/-- Outcome of the Cleanup Reaper for one candidate (§4.7). -/
inductive CleanupOutcome where
  | removedO
  | skippedO (reason : String)
  | errorO (msg : String)
  deriving DecidableEq

/-- Oracle for the external effects of one cleanup invocation: the liveness
probe, and whether removing a given worktree succeeds (aside from the
uncommitted-changes protection, which the state itself records). -/
structure CleanupEnv where
  alive : Nat → Bool
  removalOk : List Nat → Bool

/-- Partitioned cleanup result (§4.7), plus the process ids that were sent
the forceful termination signal in step 3. -/
structure CleanupResult where
  removed : List (List Nat)
  skipped : List (List Nat × String)
  errors : List (List Nat × String)
  killed : List Nat
  deriving DecidableEq

/-- Modelled from the spec: §4.7 steps 1 to 5 for one candidate sandbox.
Returns the surviving entry (if any), the recorded outcome, and the process
ids signalled. Branch deletion (step 5) is best-effort and its failure is
ignored, so it does not influence the outcome. -/
def cleanupStep (env : CleanupEnv) (removeAll force : Bool) (sb : SandboxEntry) :
    Option SandboxEntry × CleanupOutcome × List Nat :=
  if deriveStatus sb.metadata env.alive = .running ∧ removeAll = false then
    (some sb, .skippedO "still running", [])
  else
    let killed : List Nat :=
      if deriveStatus sb.metadata env.alive = .running then
        match sb.metadata with
        | some m => (match m.pid with | some p => [p] | none => [])
        | none => []
      else []
    if env.removalOk sb.name && (!sb.dirty || force) then
      (none, .removedO, killed)
    else (some sb, .errorO "removal failed", killed)

/-- Whether `sb` belongs to the candidate set of a cleanup call (§4.7): all
sandboxes, or only the named one. -/
def isCandidate (only : Option (List Nat)) (sb : SandboxEntry) : Bool :=
  match only with
  | none => true
  | some n => sb.name == n

/-- Modelled from the spec: the Cleanup Reaper loop over the registry (§4.7),
processing candidates in registry order, partitioning outcomes, and keeping
non-candidates and surviving candidates. -/
def cleanupRun (env : CleanupEnv) (only : Option (List Nat)) (removeAll force : Bool) :
    List SandboxEntry → CleanupResult × List SandboxEntry
  | [] => (⟨[], [], [], []⟩, [])
  | sb :: rest =>
    let tail := cleanupRun env only removeAll force rest
    if isCandidate only sb then
      let step := cleanupStep env removeAll force sb
      let res :=
        match step.2.1 with
        | .removedO =>
          { tail.1 with removed := sb.name :: tail.1.removed,
                        killed := step.2.2 ++ tail.1.killed }
        | .skippedO r =>
          { tail.1 with skipped := (sb.name, r) :: tail.1.skipped,
                        killed := step.2.2 ++ tail.1.killed }
        | .errorO m =>
          { tail.1 with errors := (sb.name, m) :: tail.1.errors,
                        killed := step.2.2 ++ tail.1.killed }
      (res, match step.1 with
            | some sb2 => sb2 :: tail.2
            | none => tail.2)
    else (tail.1, sb :: tail.2)

/-- Modelled from the spec: the Cleanup Reaper entry point (§4.7). -/
def cleanup (st : OrchState) (env : CleanupEnv) (only : Option (List Nat))
    (removeAll force : Bool) : CleanupResult × OrchState :=
  let r := cleanupRun env only removeAll force st.sandboxes
  (r.1, { st with sandboxes := r.2 })

/-! ### Orchestration theorems -/

/-- **C5.** The derived WorkerStatus is exactly: running iff metadata is
present with a process id the probe reports as existing; completed iff
metadata is present with a process id the probe reports as gone; unknown in
every other case (no metadata file, or metadata without a process id). -/
theorem deriveStatus_characterization (md : Option WorkerMetadata) (alive : Nat → Bool) :
    (deriveStatus md alive = .running ↔
      ∃ m pid, md = some m ∧ m.pid = some pid ∧ alive pid = true) ∧
    (deriveStatus md alive = .completed ↔
      ∃ m pid, md = some m ∧ m.pid = some pid ∧ alive pid = false) ∧
    (deriveStatus md alive = .unknown ↔
      md = none ∨ ∃ m, md = some m ∧ m.pid = none) := by
  match md with
  | none => simp [deriveStatus]
  | some m =>
    match hm : m.pid with
    | none => simp [deriveStatus, hm]
    | some pid =>
      by_cases ha : alive pid
      · simp [deriveStatus, hm, ha]
      · simp [deriveStatus, hm, ha]

/-- **C4** (amended): when the caller is not itself inside a sandbox, spawning
at or above the concurrency ceiling fails with `limit_exceeded` reporting the
active set, and the registry state is returned unchanged. -/
theorem spawn_limit_exceeded (st : OrchState) (env : SpawnEnv)
    (label task fromBranch : List Nat)
    (hd : st.depthMarker = false)
    (hc : st.maxWorkers ≤ st.sandboxes.length) :
    spawn st env label task fromBranch =
      (.error (.limit_exceeded (registryNames st)), st) := by
  simp [spawn, hd, hc]

/-- Witness for C4 (amended) at a concrete one-sandbox state with ceiling 1. -/
theorem spawn_limit_exceeded_witness :
    spawn ⟨false, 1, [⟨[97], none, true, false⟩]⟩ ⟨true, true, true, 7⟩ [98] [99] [100] =
      (.error (.limit_exceeded [[97]]), ⟨false, 1, [⟨[97], none, true, false⟩]⟩) :=
  spawn_limit_exceeded _ _ _ _ _ rfl (by decide)

/-- **C4** counterexample: a state at the concurrency ceiling whose caller
also carries the depth marker is rejected with `nesting_blocked`, not
`limit_exceeded` — the §4.5 precondition order checks nesting first, so the
claim as stated fails at this input. -/
theorem spawn_limit_claim_counterexample :
    (⟨true, 1, [⟨[97], none, true, false⟩]⟩ : OrchState).maxWorkers ≤
      (⟨true, 1, [⟨[97], none, true, false⟩]⟩ : OrchState).sandboxes.length ∧
    (spawn ⟨true, 1, [⟨[97], none, true, false⟩]⟩ ⟨true, true, true, 7⟩ [98] [99] [100]).1 =
      .error .nesting_blocked ∧
    SpawnError.nesting_blocked ≠
      .limit_exceeded (registryNames ⟨true, 1, [⟨[97], none, true, false⟩]⟩) :=
  ⟨by decide, rfl, by decide⟩

theorem removeSandbox_fresh (st : OrchState) (n : List Nat) (e : SandboxEntry)
    (he : e.name = n) (hn : n ∉ registryNames st) :
    removeSandbox { st with sandboxes := e :: st.sandboxes } n = st := by
  cases st with
  | mk dm mw sbs =>
    simp only [removeSandbox]
    congr 1
    rw [List.filter_cons]
    rw [if_neg (by simp [he])]
    rw [List.filter_eq_self]
    intro sb hsb
    simp only [Bool.not_eq_true', beq_eq_false_iff_ne, ne_eq]
    intro hcon
    exact hn (by simpa [registryNames, ← hcon] using List.mem_map_of_mem (fun x => x.name) hsb)

/-- **C7.** If sandbox creation (step a) succeeds but background launch or
metadata persistence fails, the partially created sandbox is removed before
the error is returned: the final state equals the initial one, so the failed
spawn neither counts toward later ceiling checks nor collides on retry. -/
theorem spawn_rollback_on_late_failure (st : OrchState) (env : SpawnEnv)
    (label task fromBranch : List Nat)
    (hd : st.depthMarker = false)
    (hc : st.sandboxes.length < st.maxWorkers)
    (hn : normalize label ∉ registryNames st)
    (hw : env.worktreeOk = true)
    (hf : env.launchOk = false ∨ env.persistOk = false) :
    spawn st env label task fromBranch = (.error .spawn_error, st) := by
  have hlim : ¬ st.maxWorkers ≤ st.sandboxes.length := by omega
  have hfail : ¬ (env.launchOk ∧ env.persistOk) := by
    rcases hf with h | h <;> simp [h]
  simp only [spawn, hd, Bool.false_eq_true, if_false, hlim, if_neg hn, hw,
    if_neg hfail]
  rw [if_neg (by decide : ¬ (true = false))]
  have hst : st = ⟨false, st.maxWorkers, st.sandboxes⟩ := by
    cases st
    simp_all
  have hrem := removeSandbox_fresh ⟨false, st.maxWorkers, st.sandboxes⟩ (normalize label)
    ⟨normalize label, none, true, false⟩ rfl hn
  refine congrArg (Prod.mk _) ?_
  rw [hst]
  exact hrem

/-- Witness for C7 at a concrete state: launch fails after worktree creation
and the state is returned unchanged. -/
theorem spawn_rollback_witness :
    spawn ⟨false, 3, [⟨[97], none, true, false⟩]⟩ ⟨true, false, true, 9⟩ [98] [99] [100] =
      (.error .spawn_error, ⟨false, 3, [⟨[97], none, true, false⟩]⟩) :=
  spawn_rollback_on_late_failure _ _ _ _ _ rfl (by decide) (by decide) rfl (Or.inl rfl)

theorem cleanupStep_live_skips (env : CleanupEnv) (force : Bool) (sb : SandboxEntry)
    (hlive : deriveStatus sb.metadata env.alive = .running) :
    cleanupStep env false force sb = (some sb, .skippedO "still running", []) := by
  unfold cleanupStep
  rw [if_pos ⟨hlive, rfl⟩]

theorem cleanupStep_killed_nil (env : CleanupEnv) (force : Bool) (sb : SandboxEntry) :
    (cleanupStep env false force sb).2.2 = [] := by
  unfold cleanupStep
  by_cases hr : deriveStatus sb.metadata env.alive = .running
  · rw [if_pos ⟨hr, rfl⟩]
  · rw [if_neg (fun hcon => hr hcon.1)]
    simp only [hr, if_false]
    split <;> rfl

theorem cleanupRun_killed_nil (env : CleanupEnv) (only : Option (List Nat)) (force : Bool) :
    ∀ l : List SandboxEntry, (cleanupRun env only false force l).1.killed = []
  | [] => rfl
  | sb :: rest => by
    have ih := cleanupRun_killed_nil env only force rest
    have hk := cleanupStep_killed_nil env force sb
    by_cases hc : isCandidate only sb
    · rcases hout : (cleanupStep env false force sb).2.1 with _ | r | m <;>
        simp [cleanupRun, hc, hout, hk, ih]
    · simp [cleanupRun, hc, ih]

theorem cleanupRun_skips_running (env : CleanupEnv) (only : Option (List Nat))
    (force : Bool) (sb : SandboxEntry)
    (hcand : isCandidate only sb = true)
    (hlive : deriveStatus sb.metadata env.alive = .running) :
    ∀ l : List SandboxEntry, sb ∈ l →
      (sb.name, "still running") ∈ (cleanupRun env only false force l).1.skipped ∧
      sb ∈ (cleanupRun env only false force l).2
  | [], h => absurd h (List.not_mem_nil sb)
  | e :: rest, h => by
    rcases List.mem_cons.mp h with he | hrest
    · subst he
      have hstep := cleanupStep_live_skips env force sb hlive
      simp [cleanupRun, hcand, hstep]
    · have ih := cleanupRun_skips_running env only force sb hcand hlive rest hrest
      by_cases hc : isCandidate only e
      · rcases hout : (cleanupStep env false force e).2.1 with _ | r | m <;>
          rcases hkeep : (cleanupStep env false force e).1 with _ | e2 <;>
          simp [cleanupRun, hc, hout, hkeep, ih.1, ih.2]
      · simp [cleanupRun, hc, ih.1, ih.2]

/-- **C6.** For every live candidate sandbox, cleanup with removeAll = false
records it under skipped with the reason "still running", keeps its registry
entry (directory, metadata file, branch, working tree) unchanged in the final
state, and sends no termination signal during the whole call. -/
theorem cleanup_skips_running (st : OrchState) (env : CleanupEnv)
    (only : Option (List Nat)) (force : Bool) (sb : SandboxEntry)
    (hmem : sb ∈ st.sandboxes)
    (hcand : isCandidate only sb = true)
    (hlive : deriveStatus sb.metadata env.alive = .running) :
    (sb.name, "still running") ∈ (cleanup st env only false force).1.skipped ∧
    sb ∈ (cleanup st env only false force).2.sandboxes ∧
    (cleanup st env only false force).1.killed = [] := by
  have h := cleanupRun_skips_running env only force sb hcand hlive st.sandboxes hmem
  exact ⟨h.1, h.2, cleanupRun_killed_nil env only force st.sandboxes⟩

/-- Witness for C6 at a concrete registry holding one live sandbox. -/
theorem cleanup_skips_running_witness :
    (([97], "still running") ∈
      (cleanup ⟨false, 3, [⟨[97], some ⟨[98], [99], [100], some 5⟩, true, false⟩]⟩
        ⟨fun p => p == 5, fun _ => true⟩ none false false).1.skipped) ∧
    ((⟨[97], some ⟨[98], [99], [100], some 5⟩, true, false⟩ : SandboxEntry) ∈
      (cleanup ⟨false, 3, [⟨[97], some ⟨[98], [99], [100], some 5⟩, true, false⟩]⟩
        ⟨fun p => p == 5, fun _ => true⟩ none false false).2.sandboxes) ∧
    ((cleanup ⟨false, 3, [⟨[97], some ⟨[98], [99], [100], some 5⟩, true, false⟩]⟩
        ⟨fun p => p == 5, fun _ => true⟩ none false false).1.killed = []) :=
  cleanup_skips_running ⟨false, 3, [⟨[97], some ⟨[98], [99], [100], some 5⟩, true, false⟩]⟩
    ⟨fun p => p == 5, fun _ => true⟩ none false
    ⟨[97], some ⟨[98], [99], [100], some 5⟩, true, false⟩ (by decide) rfl (by decide)

/-! ## sync_back.py (source under `src/scripts/allhands/sync_back.py`)

File contents are modelled as `String` (only byte-for-byte equality is ever
used); a missing file is `none`.  The manifest object and the ignore-pattern
list are arguments of the Python function being embedded, so they appear here
as a distributable list and an ignore predicate.  External processes (git,
gh) and interactive input are oracles in the environment record. -/

/-- The protected-branch set of sync_back.py (module constant). -/
def PROTECTED_BRANCHES : List String :=
  ["main", "master", "develop", "staging", "production"]

/-- Embedding of `get_changed_managed_files`: the loop over the distributable
files, producing `base_changes` in iteration order.  Ignored files and files
missing from the target are skipped; a file missing from the source, or
differing byte-wise from it, is a base change. -/
def get_changed_managed_files_base (ignored : String → Bool)
    (source target : String → Option String) : List String → List String
  | [] => []
  | p :: rest =>
    let tail := get_changed_managed_files_base ignored source target rest
    if ignored p then tail
    else
      match target p with
      | none => tail
      | some tb =>
        match source p with
        | none => p :: tail
        | some sb => if sb ≠ tb then p :: tail else tail

/-- Embedding of `get_changed_managed_files`: returns the pair
(base_changes, project_changes); the source never appends to
`project_changes`. -/
def get_changed_managed_files (dist : List String) (ignored : String → Bool)
    (source target : String → Option String) : List String × List String :=
  (get_changed_managed_files_base ignored source target dist, [])

/-- Observable side effects of one sync-back invocation, used to state that
the early-return paths perform no work. -/
inductive SyncEffect where
  | compareRead (p : String)
  | scanNew
  | branchOp (name : String)
  | copyFile (p : String)
  | prOp
  deriving DecidableEq

/-- Oracle for `create_or_update_pr`: whether one of its fallible operations
(interactive input, file copying, git or gh subprocesses) raises, and the
answer to the interactive confirmation prompt. -/
structure PrEnv where
  raisesEarly : Bool
  confirmYes : Bool
  deriving DecidableEq

/-- Embedding of `create_or_update_pr` at the granularity the commands need:
it may raise; in non-auto mode a declined confirmation returns False with no
git work; otherwise the branch is checked out or created, the files copied,
and the PR created or updated. -/
def create_or_update_pr (env : PrEnv) (files : List String) (prBranch : String)
    (auto : Bool) : Except String Bool × List SyncEffect :=
  if env.raisesEarly then (.error "OSError", [])
  else if !auto && !env.confirmYes then (.ok false, [])
  else (.ok true, SyncEffect.branchOp prBranch :: files.map SyncEffect.copyFile ++ [SyncEffect.prOp])

/-- Environment of one `cmd_sync_back` invocation: the working-directory and
git facts the command reads, the manifest data, the two file trees, the
result of the new-file scan (`get_new_files_in_managed_dirs`, abstracted as a
list), the repository name, and the oracles for fallible operations.
`loadRaises` models an exception from manifest construction, ignore-pattern
loading, or a managed-file read during comparison. -/
structure SyncBackEnv where
  cwdIsGitRepo : Bool
  currentBranch : String
  allhandsPath : Option String
  manifestFileExists : Bool
  loadRaises : Bool
  dist : List String
  ignored : String → Bool
  sourceFs : String → Option String
  targetFs : String → Option String
  newFiles : List String
  repoName : String
  pr : PrEnv

/-- The comparison reads `get_changed_managed_files` performs: one read pair
for every non-ignored distributable file present in the target. -/
def compareEffects (env : SyncBackEnv) : List SyncEffect :=
  (env.dist.filter (fun p => !env.ignored p && (env.targetFs p).isSome)).map
    SyncEffect.compareRead

/-- The `files_to_sync` list of `cmd_sync_back`: base changes then new files. -/
def filesToSync (env : SyncBackEnv) : List String :=
  (get_changed_managed_files env.dist env.ignored env.sourceFs env.targetFs).1 ++ env.newFiles

/-- Embedding of `cmd_sync_back`.  The first component is the structured
return code (`.ok`) or an exception escaping the command (`.error`); the
second component is the trace of side effects performed. -/
def cmd_sync_back (env : SyncBackEnv) (auto auto_yes : Bool) :
    Except String Int × List SyncEffect :=
  if !env.cwdIsGitRepo then (.ok 1, [])
  else if env.currentBranch = "" then
    (if auto then (.ok 0, []) else (.ok 1, []))
  else if auto && !(PROTECTED_BRANCHES.contains env.currentBranch) then (.ok 0, [])
  else
    match env.allhandsPath with
    | none => if auto then (.ok 0, []) else (.ok 1, [])
    | some _ =>
      if !env.manifestFileExists then (.ok 1, [])
      else if env.loadRaises then (.error "manifest or file read failure", [])
      else
        let eff := compareEffects env ++ [SyncEffect.scanNew]
        if filesToSync env = [] then (.ok 0, eff)
        else
          let prBranch := env.repoName ++ "/" ++ env.currentBranch
          if auto then
            match create_or_update_pr env.pr (filesToSync env) prBranch true with
            | (.error _, pe) => (.ok 0, eff ++ pe)
            | (.ok _, pe) => (.ok 0, eff ++ pe)
          else
            match create_or_update_pr env.pr (filesToSync env) prBranch auto_yes with
            | (.error e, pe) => (.error e, eff ++ pe)
            | (.ok true, pe) => (.ok 0, eff ++ pe)
            | (.ok false, pe) => (.ok 1, eff ++ pe)

/-! ### sync_back theorems -/

/-- The per-file condition under which the comparison loop records a base
change. -/
def isBaseChange (ignored : String → Bool) (source target : String → Option String)
    (p : String) : Bool :=
  !ignored p &&
  (match target p with
   | none => false
   | some tb =>
     match source p with
     | none => true
     | some sb => !(sb == tb))

theorem gcmf_base_eq_filter (ignored : String → Bool)
    (source target : String → Option String) :
    ∀ dist : List String, get_changed_managed_files_base ignored source target dist =
      dist.filter (isBaseChange ignored source target)
  | [] => rfl
  | q :: rest => by
    have ih := gcmf_base_eq_filter ignored source target rest
    simp only [get_changed_managed_files_base, List.filter_cons]
    by_cases hiq : ignored q
    · simp [hiq, ih, isBaseChange]
    · cases ht : target q with
      | none => simp [hiq, ht, ih, isBaseChange]
      | some tb =>
        cases hs : source q with
        | none => simp [hiq, ht, hs, ih, isBaseChange]
        | some sb =>
          by_cases hne : sb = tb
          · simp [hiq, ht, hs, hne, ih, isBaseChange]
          · simp [hiq, ht, hs, hne, ih, isBaseChange]

theorem isBaseChange_iff (ignored : String → Bool) (source target : String → Option String)
    (p : String) :
    isBaseChange ignored source target p = true ↔
      (ignored p = false ∧ ∃ tb, target p = some tb ∧
        (source p = none ∨ source p ≠ some tb)) := by
  unfold isBaseChange
  cases ht : target p with
  | none => simp [ht]
  | some tb =>
    cases hs : source p with
    | none => simp [ht, hs]
    | some sb =>
      by_cases hne : sb = tb
      · simp [ht, hs, hne]
      · simp [ht, hs, hne]

/-- **C9.** `get_changed_managed_files` always returns an empty
`project_changes` list, and a file is in `base_changes` exactly when it is a
non-ignored distributable file present in the target whose source is missing
or differs byte-wise — so every detected difference is classified as a base
change and none as a project change. -/
theorem sync_back_changes_all_base (dist : List String) (ignored : String → Bool)
    (source target : String → Option String) :
    (get_changed_managed_files dist ignored source target).2 = [] ∧
    ∀ p, p ∈ (get_changed_managed_files dist ignored source target).1 ↔
      (p ∈ dist ∧ ignored p = false ∧
        ∃ tb, target p = some tb ∧ (source p = none ∨ source p ≠ some tb)) := by
  refine ⟨rfl, fun p => ?_⟩
  simp only [get_changed_managed_files, gcmf_base_eq_filter, List.mem_filter]
  rw [isBaseChange_iff]

/-- **C8.** In auto mode inside a git repository, with a non-empty current
branch that is not protected, cmd_sync_back returns 0 and performs no work at
all: no comparison read, no new-file scan, no branch operation, no file copy,
no PR operation. -/
theorem auto_mode_nonprotected_is_noop (env : SyncBackEnv) (ay : Bool)
    (h1 : env.cwdIsGitRepo = true)
    (h2 : env.currentBranch ≠ "")
    (h3 : PROTECTED_BRANCHES.contains env.currentBranch = false) :
    cmd_sync_back env true ay = (.ok 0, []) := by
  have h3m : env.currentBranch ∉ PROTECTED_BRANCHES := by simpa using h3
  simp [cmd_sync_back, h1, h2, h3m]

/-- Witness for C8 on a feature branch. -/
theorem auto_mode_nonprotected_is_noop_witness :
    cmd_sync_back ⟨true, "feature-x", none, false, false, [], fun _ => false,
      fun _ => none, fun _ => none, [], "repo", ⟨false, false⟩⟩ true false = (.ok 0, []) :=
  auto_mode_nonprotected_is_noop _ _ rfl (by decide) (by decide)

/-- **C2.** In auto mode, once the command reaches the sync step, a failure
raised inside `create_or_update_pr` is swallowed: the command still returns
the structured code 0, never a non-zero code and never an uncaught
exception. -/
theorem auto_sync_failure_swallowed (env : SyncBackEnv) (ay : Bool)
    (h1 : env.cwdIsGitRepo = true)
    (h2 : env.currentBranch ≠ "")
    (h3 : PROTECTED_BRANCHES.contains env.currentBranch = true)
    (h4 : env.allhandsPath.isSome = true)
    (h5 : env.manifestFileExists = true)
    (h6 : env.loadRaises = false)
    (h7 : filesToSync env ≠ [])
    (h8 : env.pr.raisesEarly = true) :
    (cmd_sync_back env true ay).1 = .ok 0 := by
  obtain ⟨path, hpath⟩ := Option.isSome_iff_exists.mp h4
  have h3m : env.currentBranch ∈ PROTECTED_BRANCHES := by simpa using h3
  simp [cmd_sync_back, h1, h2, h3m, hpath, h5, h6, h7, create_or_update_pr, h8]

/-- Witness for C2: on the protected branch main, with one new file to sync
and a PR step that raises, the command returns 0. -/
theorem auto_sync_failure_swallowed_witness :
    (cmd_sync_back ⟨true, "main", some "ah", true, false, [], fun _ => false,
      fun _ => none, fun _ => none, ["newfile"], "repo", ⟨true, false⟩⟩ true false).1 =
      .ok 0 :=
  auto_sync_failure_swallowed _ _ rfl (by decide) (by decide) rfl rfl rfl (by decide) rfl

/-! ## init.py (source under `src/scripts/allhands/init.py`)

The target file tree is an association list (`fsGet` finds the most recent
write), so states stay decidable.  The manifest and patch helpers
(`Manifest.get_distributable_files`, `get_current_commit`) live in modules
that are not under `src/`, so their results are inputs of the environment. -/

/-- Lookup in the association-list model of a file tree. -/
def fsGet : List (String × String) → String → Option String
  | [], _ => none
  | (k, v) :: rest, p => if p = k then some v else fsGet rest p

/-- A file write in that model. -/
def fsSet (fs : List (String × String)) (p : String) (b : String) :
    List (String × String) :=
  (p, b) :: fs

/-- Conflict resolution choices of `prompt_conflict`. -/
inductive Choice where
  | replace
  | combine
  | skip
  deriving DecidableEq

/-- Embedding of `prompt_conflict`: with auto_yes the answer is replace;
otherwise the (eventually valid) interactive answer from the environment. -/
def prompt_conflict (choice : String → Choice) (p : String) (auto_yes : Bool) : Choice :=
  if auto_yes then .replace else choice p

/-- Environment of one `cmd_init` invocation: the distributable list from the
manifest, the allhands source tree, the interactive conflict answers, the
answer to the continue-without-git prompt, and the current allhands commit
recorded in the patch placeholder. -/
structure InitEnv where
  dist : List String
  source : String → Option String
  choice : String → Choice
  confirmContinue : Bool
  baseCommit : String

/-- The target repository as `cmd_init` sees it. -/
structure InitState where
  dirExists : Bool
  isGitRepo : Bool
  files : List (String × String)
  deriving DecidableEq

/-- What a completed `cmd_init` reports and leaves behind: return code, final
target state, chronological write log, copied and skipped counters. -/
structure InitOutcome where
  rc : Int
  state : InitState
  writes : List (String × String)
  copied : Nat
  skipped : Nat
  deriving DecidableEq

/-- Insertion of one string into a sorted list. -/
def insertSorted (x : String) : List String → List String
  | [] => [x]
  | y :: rest => if x ≤ y then x :: y :: rest else y :: insertSorted x rest

/-- Embedding of `sorted(...)` over file paths. -/
def sortStrings : List String → List String
  | [] => []
  | x :: rest => insertSorted x (sortStrings rest)

/-- The `.allhandsignore` template `cmd_init` writes when the file is absent
(body abbreviated to its first line; only presence and byte-equality of the
file matter to the embedded control flow). -/
def ignoreTemplate : String :=
  "# AllHands Ignore - Exclude files from sync-back to claude-all-hands\n"

/-- The `.allhands.patch` placeholder content, keyed by the current allhands
commit (body abbreviated to its header lines). -/
def patchContent (baseCommit : String) : String :=
  "# claude-all-hands base: " ++ baseCommit ++ "\n# generated: initial\n"

/-- Embedding of the distribution loop of `cmd_init` over the sorted file
list: threads the target state and produces the write log and the copied and
skipped counters, or raises (`.error`) when a needed source file is missing
(`read_bytes` or `copy2` on a missing source). -/
def initLoop (env : InitEnv) (auto_yes : Bool) :
    List String → InitState → Except String (InitState × List (String × String) × Nat × Nat)
  | [], st => .ok (st, [], 0, 0)
  | p :: rest, st =>
    match fsGet st.files p, env.source p with
    | some tb, some sb =>
      if sb = tb then
        match initLoop env auto_yes rest st with
        | .error e => .error e
        | .ok (st2, w, c, k) => .ok (st2, w, c, k + 1)
      else
        match prompt_conflict env.choice p auto_yes with
        | .skip =>
          match initLoop env auto_yes rest st with
          | .error e => .error e
          | .ok (st2, w, c, k) => .ok (st2, w, c, k + 1)
        | _ =>
          match initLoop env auto_yes rest { st with files := fsSet st.files p sb } with
          | .error e => .error e
          | .ok (st2, w, c, k) => .ok (st2, (p, sb) :: w, c + 1, k)
    | some _, none => .error "read_bytes: missing source file"
    | none, some sb =>
      match initLoop env auto_yes rest { st with files := fsSet st.files p sb } with
      | .error e => .error e
      | .ok (st2, w, c, k) => .ok (st2, (p, sb) :: w, c + 1, k)
    | none, none => .error "copy2: missing source file"

/-- One `if not file.exists(): file.write_text(...)` step of `cmd_init`,
threading the state and the write log. -/
def createIfAbsent (p b : String) (s : InitState × List (String × String)) :
    InitState × List (String × String) :=
  if (fsGet s.1.files p).isSome then s
  else ({ s.1 with files := fsSet s.1.files p b }, s.2 ++ [(p, b)])

/-- The tail of `cmd_init` after the distribution loop: create the
`.allhandsignore` template and the `.allhands.patch` placeholder when the
target does not already have them, extending the write log accordingly. -/
def initFinalize (env : InitEnv) (st1 : InitState) (w : List (String × String)) :
    InitState × List (String × String) :=
  createIfAbsent ".allhands.patch" (patchContent env.baseCommit)
    (createIfAbsent ".allhandsignore" ignoreTemplate (st1, w))

/-- Embedding of `cmd_init`: validation, the distribution loop over the
sorted distributable list, then creation of `.allhandsignore` and
`.allhands.patch` when absent.  `.error` is an exception escaping the
command; `.ok` carries the structured outcome. -/
def cmd_init (st : InitState) (env : InitEnv) (auto_yes : Bool) :
    Except String InitOutcome :=
  if st.dirExists = false then .ok ⟨1, st, [], 0, 0⟩
  else if st.isGitRepo = false ∧ auto_yes = false ∧ env.confirmContinue = false then
    .ok ⟨1, st, [], 0, 0⟩
  else
    match initLoop env auto_yes (sortStrings env.dist) st with
    | .error e => .error e
    | .ok (st1, w, c, k) =>
      .ok ⟨0, (initFinalize env st1 w).1, (initFinalize env st1 w).2, c, k⟩

/-! ### init.py lemmas -/

theorem fsGet_fsSet (fs : List (String × String)) (p b q : String) :
    fsGet (fsSet fs p b) q = if q = p then some b else fsGet fs q := rfl

theorem insertSorted_length (x : String) :
    ∀ l : List String, (insertSorted x l).length = l.length + 1
  | [] => rfl
  | y :: rest => by
    unfold insertSorted
    split
    · rfl
    · simp [insertSorted_length x rest]

theorem sortStrings_length : ∀ l : List String, (sortStrings l).length = l.length
  | [] => rfl
  | x :: rest => by
    unfold sortStrings
    rw [insertSorted_length, sortStrings_length rest]
    rfl

theorem mem_insertSorted (x p : String) :
    ∀ l : List String, p ∈ insertSorted x l ↔ (p = x ∨ p ∈ l)
  | [] => by simp [insertSorted]
  | y :: rest => by
    unfold insertSorted
    split
    · simp [List.mem_cons]
    · rw [List.mem_cons, mem_insertSorted x p rest, List.mem_cons]
      tauto

theorem mem_sortStrings (p : String) :
    ∀ l : List String, p ∈ sortStrings l ↔ p ∈ l
  | [] => Iff.rfl
  | x :: rest => by
    unfold sortStrings
    rw [mem_insertSorted, mem_sortStrings p rest, List.mem_cons]

theorem initLoop_post (env : InitEnv) :
    ∀ (l : List String) (st st2 : InitState) (w : List (String × String)) (c k : Nat),
      initLoop env true l st = .ok (st2, w, c, k) →
      st2.dirExists = st.dirExists ∧ st2.isGitRepo = st.isGitRepo ∧
      (∀ q, fsGet st2.files q = fsGet st.files q ∨ fsGet st2.files q = env.source q) ∧
      (∀ p ∈ l, fsGet st2.files p = env.source p ∧ (env.source p).isSome = true)
  | [], st, st2, w, c, k, h => by
    simp only [initLoop, Except.ok.injEq, Prod.mk.injEq] at h
    obtain ⟨rfl, -, -, -⟩ := h
    exact ⟨rfl, rfl, fun q => Or.inl rfl, by simp⟩
  | p :: rest, st, st2, w, c, k, h => by
    simp only [initLoop] at h
    cases hf : fsGet st.files p with
    | some tb =>
      cases hs : env.source p with
      | some sb =>
        rw [hf, hs] at h
        dsimp only at h
        by_cases heq : sb = tb
        · rw [if_pos heq] at h
          cases hrec : initLoop env true rest st with
          | error e => rw [hrec] at h; cases h
          | ok r =>
            obtain ⟨a, b, cc, kk⟩ := r
            rw [hrec] at h
            simp only [Except.ok.injEq, Prod.mk.injEq] at h
            obtain ⟨rfl, -, -, -⟩ := h
            obtain ⟨h1, h2, h3, h4⟩ := initLoop_post env rest st a b cc kk hrec
            refine ⟨h1, h2, h3, fun q hq => ?_⟩
            rcases List.mem_cons.mp hq with rfl | hq2
            · refine ⟨?_, by simp [hs]⟩
              rcases h3 q with h5 | h5
              · rw [h5, hf, hs, heq]
              · rw [h5]
            · exact h4 q hq2
        · rw [if_neg heq] at h
          rw [show prompt_conflict env.choice p true = Choice.replace from rfl] at h
          dsimp only at h
          cases hrec : initLoop env true rest { st with files := fsSet st.files p sb } with
          | error e => rw [hrec] at h; cases h
          | ok r =>
            obtain ⟨a, b, cc, kk⟩ := r
            rw [hrec] at h
            simp only [Except.ok.injEq, Prod.mk.injEq] at h
            obtain ⟨rfl, -, -, -⟩ := h
            obtain ⟨h1, h2, h3, h4⟩ :=
              initLoop_post env rest { st with files := fsSet st.files p sb } a b cc kk hrec
            refine ⟨h1, h2, fun q => ?_, fun q hq => ?_⟩
            · rcases h3 q with h5 | h5
              · rw [h5, fsGet_fsSet]
                by_cases hqp : q = p
                · rw [if_pos hqp, hqp, hs]
                  exact Or.inr rfl
                · rw [if_neg hqp]
                  exact Or.inl rfl
              · exact Or.inr h5
            · rcases List.mem_cons.mp hq with rfl | hq2
              · refine ⟨?_, by simp [hs]⟩
                rcases h3 q with h5 | h5
                · rw [h5, fsGet_fsSet, if_pos rfl, hs]
                · rw [h5]
              · exact h4 q hq2
      | none =>
        rw [hf, hs] at h
        dsimp only at h
        cases h
    | none =>
      cases hs : env.source p with
      | some sb =>
        rw [hf, hs] at h
        dsimp only at h
        cases hrec : initLoop env true rest { st with files := fsSet st.files p sb } with
        | error e => rw [hrec] at h; cases h
        | ok r =>
          obtain ⟨a, b, cc, kk⟩ := r
          rw [hrec] at h
          simp only [Except.ok.injEq, Prod.mk.injEq] at h
          obtain ⟨rfl, -, -, -⟩ := h
          obtain ⟨h1, h2, h3, h4⟩ :=
            initLoop_post env rest { st with files := fsSet st.files p sb } a b cc kk hrec
          refine ⟨h1, h2, fun q => ?_, fun q hq => ?_⟩
          · rcases h3 q with h5 | h5
            · rw [h5, fsGet_fsSet]
              by_cases hqp : q = p
              · rw [if_pos hqp, hqp, hs]
                exact Or.inr rfl
              · rw [if_neg hqp]
                exact Or.inl rfl
            · exact Or.inr h5
          · rcases List.mem_cons.mp hq with rfl | hq2
            · refine ⟨?_, by simp [hs]⟩
              rcases h3 q with h5 | h5
              · rw [h5, fsGet_fsSet, if_pos rfl, hs]
              · rw [h5]
            · exact h4 q hq2
      | none =>
        rw [hf, hs] at h
        dsimp only at h
        cases h

theorem initLoop_fixpoint (env : InitEnv) :
    ∀ (l : List String) (st : InitState),
      (∀ p ∈ l, fsGet st.files p = env.source p ∧ (env.source p).isSome = true) →
      initLoop env true l st = .ok (st, [], 0, l.length)
  | [], _, _ => rfl
  | p :: rest, st, h => by
    obtain ⟨hp, hps⟩ := h p (List.mem_cons_self p rest)
    obtain ⟨sb, hsb⟩ := Option.isSome_iff_exists.mp hps
    have hf : fsGet st.files p = some sb := by rw [hp, hsb]
    have ih := initLoop_fixpoint env rest st (fun q hq => h q (List.mem_cons_of_mem p hq))
    simp only [initLoop, hf, hsb]
    rw [if_pos trivial, ih]
    rfl

theorem createIfAbsent_flags (p b : String) (s : InitState × List (String × String)) :
    (createIfAbsent p b s).1.dirExists = s.1.dirExists ∧
    (createIfAbsent p b s).1.isGitRepo = s.1.isGitRepo := by
  unfold createIfAbsent
  split <;> simp

theorem fsGet_createIfAbsent_self (p b : String) (s : InitState × List (String × String)) :
    (fsGet (createIfAbsent p b s).1.files p).isSome = true := by
  unfold createIfAbsent
  split
  · assumption
  · simp [fsGet_fsSet]

theorem fsGet_createIfAbsent_other (p b : String) (s : InitState × List (String × String))
    (q : String) (hq : q ≠ p) :
    fsGet (createIfAbsent p b s).1.files q = fsGet s.1.files q := by
  unfold createIfAbsent
  split
  · rfl
  · simp [fsGet_fsSet, hq]

theorem createIfAbsent_present (p b : String) (s : InitState × List (String × String))
    (h : (fsGet s.1.files p).isSome = true) : createIfAbsent p b s = s := by
  unfold createIfAbsent
  rw [if_pos h]

theorem createIfAbsent_frame (p b : String) (s : InitState × List (String × String))
    (q : String) (hq : fsGet s.1.files q ≠ none) :
    fsGet (createIfAbsent p b s).1.files q = fsGet s.1.files q := by
  by_cases hqp : q = p
  · rw [hqp] at hq ⊢
    rw [createIfAbsent_present p b s (Option.isSome_iff_ne_none.mpr hq)]
  · exact fsGet_createIfAbsent_other p b s q hqp

theorem initFinalize_spec (env : InitEnv) (st1 : InitState) (w : List (String × String)) :
    (initFinalize env st1 w).1.dirExists = st1.dirExists ∧
    (initFinalize env st1 w).1.isGitRepo = st1.isGitRepo ∧
    (fsGet (initFinalize env st1 w).1.files ".allhandsignore").isSome = true ∧
    (fsGet (initFinalize env st1 w).1.files ".allhands.patch").isSome = true ∧
    (∀ q, fsGet st1.files q ≠ none →
      fsGet (initFinalize env st1 w).1.files q = fsGet st1.files q) := by
  unfold initFinalize
  refine ⟨?_, ?_, ?_, fsGet_createIfAbsent_self _ _ _, ?_⟩
  · rw [(createIfAbsent_flags _ _ _).1, (createIfAbsent_flags _ _ _).1]
  · rw [(createIfAbsent_flags _ _ _).2, (createIfAbsent_flags _ _ _).2]
  · rw [fsGet_createIfAbsent_other _ _ _ _ (by decide)]
    exact fsGet_createIfAbsent_self _ _ _
  · intro q hq
    have h1 := createIfAbsent_frame ".allhandsignore" ignoreTemplate (st1, w) q hq
    rw [createIfAbsent_frame _ _ _ q (by rw [h1]; exact hq), h1]

/-- **C10.** `cmd_init` with auto_yes is idempotent: if one call on a target
completes with return code 0, an immediately repeated call on the unchanged
target returns code 0, leaves the state identical, writes no file (so the
`.allhandsignore` and `.allhands.patch` files are not recreated), copies 0
files, and counts every distributable file as skipped. -/
theorem cmd_init_idempotent (st : InitState) (env : InitEnv) (out : InitOutcome)
    (h : cmd_init st env true = .ok out) (hrc : out.rc = 0) :
    cmd_init out.state env true = .ok ⟨0, out.state, [], 0, env.dist.length⟩ := by
  unfold cmd_init at h
  by_cases hde : st.dirExists = false
  · rw [if_pos hde] at h
    simp only [Except.ok.injEq] at h
    rw [← h] at hrc
    simp at hrc
  · rw [if_neg hde] at h
    rw [if_neg (by simp)] at h
    cases hloop : initLoop env true (sortStrings env.dist) st with
    | error e => rw [hloop] at h; cases h
    | ok r =>
      obtain ⟨st1, w, c, k⟩ := r
      rw [hloop] at h
      dsimp only at h
      simp only [Except.ok.injEq] at h
      subst h
      obtain ⟨hdir, hgit, hframe, hpost⟩ :=
        initLoop_post env (sortStrings env.dist) st st1 w c k hloop
      obtain ⟨ffdir, ffgit, ffig, ffpatch, fframe⟩ := initFinalize_spec env st1 w
      have hpost2 : ∀ p ∈ sortStrings env.dist,
          fsGet (initFinalize env st1 w).1.files p = env.source p ∧
          (env.source p).isSome = true := by
        intro p hp
        obtain ⟨he, hsome⟩ := hpost p hp
        refine ⟨?_, hsome⟩
        rw [fframe p (by rw [he]; exact Option.isSome_iff_ne_none.mp hsome), he]
      unfold cmd_init
      rw [if_neg (by rw [ffdir, hdir]; exact hde)]
      rw [if_neg (by simp)]
      rw [initLoop_fixpoint env (sortStrings env.dist) _ hpost2]
      dsimp only
      have hfin2 : ∀ S : InitState, (fsGet S.files ".allhandsignore").isSome = true →
          (fsGet S.files ".allhands.patch").isSome = true →
          initFinalize env S [] = (S, []) := by
        intro S h1 h2
        unfold initFinalize
        rw [createIfAbsent_present ".allhandsignore" ignoreTemplate (S, []) h1]
        exact createIfAbsent_present ".allhands.patch" (patchContent env.baseCommit) (S, []) h2
      rw [hfin2 _ ffig ffpatch, sortStrings_length]

/-- Witness for C10: a fresh target receiving one distributable file; the
second call is the identity with 1 skip and 0 copies. -/
theorem cmd_init_idempotent_witness :
    cmd_init
      ⟨true, true, [(".allhands.patch", patchContent "c0"),
                    (".allhandsignore", ignoreTemplate), ("a", "x")]⟩
      ⟨["a"], fun p => if p = "a" then some "x" else none, fun _ => .replace, true, "c0"⟩
      true =
    .ok ⟨0, ⟨true, true, [(".allhands.patch", patchContent "c0"),
                          (".allhandsignore", ignoreTemplate), ("a", "x")]⟩, [], 0, 1⟩ :=
  cmd_init_idempotent ⟨true, true, []⟩
    ⟨["a"], fun p => if p = "a" then some "x" else none, fun _ => .replace, true, "c0"⟩
    ⟨0, ⟨true, true, [(".allhands.patch", patchContent "c0"),
                      (".allhandsignore", ignoreTemplate), ("a", "x")]⟩,
        [("a", "x"), (".allhandsignore", ignoreTemplate), (".allhands.patch", patchContent "c0")],
        1, 0⟩
    rfl rfl

theorem create_or_update_pr_ok (env : PrEnv) (files : List String) (br : String)
    (auto : Bool) (h : env.raisesEarly = false) :
    ∃ b pe, create_or_update_pr env files br auto = (.ok b, pe) := by
  unfold create_or_update_pr
  rw [if_neg (by simp [h])]
  split
  · exact ⟨false, [], rfl⟩
  · exact ⟨true, _, rfl⟩

theorem initLoop_ok_of_sources (env : InitEnv) (ay : Bool) :
    ∀ (l : List String) (st : InitState),
      (∀ p ∈ l, (env.source p).isSome = true) →
      ∃ r, initLoop env ay l st = .ok r
  | [], st, _ => ⟨(st, [], 0, 0), rfl⟩
  | p :: rest, st, h => by
    obtain ⟨sb, hsb⟩ := Option.isSome_iff_exists.mp (h p (List.mem_cons_self p rest))
    have hrest := fun (st2 : InitState) => initLoop_ok_of_sources env ay rest st2
      (fun q hq => h q (List.mem_cons_of_mem p hq))
    simp only [initLoop, hsb]
    cases hf : fsGet st.files p with
    | none =>
      dsimp only
      obtain ⟨r, hr⟩ := hrest { st with files := fsSet st.files p sb }
      obtain ⟨a, b, cc, kk⟩ := r
      rw [hr]
      exact ⟨_, rfl⟩
    | some tb =>
      dsimp only
      by_cases heq : sb = tb
      · rw [if_pos heq]
        obtain ⟨r, hr⟩ := hrest st
        obtain ⟨a, b, cc, kk⟩ := r
        rw [hr]
        exact ⟨_, rfl⟩
      · rw [if_neg heq]
        cases hch : prompt_conflict env.choice p ay with
        | skip =>
          obtain ⟨r, hr⟩ := hrest st
          obtain ⟨a, b, cc, kk⟩ := r
          rw [hr]
          exact ⟨_, rfl⟩
        | replace =>
          obtain ⟨r, hr⟩ := hrest { st with files := fsSet st.files p sb }
          obtain ⟨a, b, cc, kk⟩ := r
          rw [hr]
          exact ⟨_, rfl⟩
        | combine =>
          obtain ⟨r, hr⟩ := hrest { st with files := fsSet st.files p sb }
          obtain ⟨a, b, cc, kk⟩ := r
          rw [hr]
          exact ⟨_, rfl⟩

/-- **C1** (amended). Explicit validation failures are converted into
structured return codes, but full exception safety holds only when the
underlying operations do not raise: if manifest loading, the comparison
reads, and the PR step do not raise, no exception escapes `cmd_sync_back`;
and if every distributable source file exists, no exception escapes
`cmd_init`. -/
theorem commands_no_escape_when_io_ok :
    (∀ (env : SyncBackEnv) (auto ay : Bool), env.loadRaises = false →
      env.pr.raisesEarly = false → ∃ rc, (cmd_sync_back env auto ay).1 = .ok rc) ∧
    (∀ (st : InitState) (env : InitEnv) (ay : Bool),
      (∀ p ∈ env.dist, (env.source p).isSome = true) →
      ∃ out, cmd_init st env ay = .ok out) := by
  constructor
  · intro env auto ay h6 h8
    obtain ⟨b, pe, hpr⟩ := create_or_update_pr_ok env.pr (filesToSync env)
      (env.repoName ++ "/" ++ env.currentBranch) ay h8
    unfold cmd_sync_back
    repeat' split
    all_goals try exact ⟨_, rfl⟩
    all_goals try simp_all
    · rcases hc : create_or_update_pr env.pr (filesToSync env)
          (env.repoName ++ "/" ++ env.currentBranch) true with ⟨res | res, pe2⟩ <;>
        exact ⟨0, rfl⟩
    · cases b
      · exact ⟨1, rfl⟩
      · exact ⟨0, rfl⟩
  · intro st env ay hsrc
    unfold cmd_init
    by_cases hde : st.dirExists = false
    · rw [if_pos hde]
      exact ⟨_, rfl⟩
    · rw [if_neg hde]
      by_cases hcond : st.isGitRepo = false ∧ ay = false ∧ env.confirmContinue = false
      · rw [if_pos hcond]
        exact ⟨_, rfl⟩
      · rw [if_neg hcond]
        obtain ⟨r, hr⟩ := initLoop_ok_of_sources env ay (sortStrings env.dist) st
          (fun p hp => hsrc p ((mem_sortStrings p env.dist).mp hp))
        obtain ⟨st1, w, c, k⟩ := r
        rw [hr]
        exact ⟨_, rfl⟩

/-- **C1** counterexample: in interactive mode, inside a git repository with
a branch, ALLHANDS_PATH set, the manifest present and one file to sync, an
exception raised inside the PR step escapes `cmd_sync_back` uncaught instead
of being converted into a structured error result. -/
theorem cmd_sync_back_exception_escapes :
    (cmd_sync_back ⟨true, "feature", some "ah", true, false, [], fun _ => false,
      fun _ => none, fun _ => none, ["newfile"], "repo", ⟨true, true⟩⟩ false false).1 =
      .error "OSError" := rfl

/-- Witness for C1 (amended), instantiating both entry points. -/
theorem commands_no_escape_when_io_ok_witness :
    (∃ rc, (cmd_sync_back ⟨true, "feature", some "ah", true, false, [], fun _ => false,
      fun _ => none, fun _ => none, ["newfile"], "repo", ⟨false, true⟩⟩ false false).1 =
        .ok rc) ∧
    (∃ out, cmd_init ⟨true, true, []⟩
      ⟨["b"], fun p => if p = "b" then some "y" else none, fun _ => .replace, true, "c1"⟩
      true = .ok out) :=
  ⟨commands_no_escape_when_io_ok.1
      ⟨true, "feature", some "ah", true, false, [], fun _ => false,
        fun _ => none, fun _ => none, ["newfile"], "repo", ⟨false, true⟩⟩ false false rfl rfl,
   commands_no_escape_when_io_ok.2 ⟨true, true, []⟩
      ⟨["b"], fun p => if p = "b" then some "y" else none, fun _ => .replace, true, "c1"⟩
      true (by decide)⟩

end AllHands
